import Mathlib

/-!
Verification of the Dice-loss / training-step / checkpoint-policy core of the
atrium-segmentation notebook (`04-Train.ipynb`).

Tensors are embedded as their flattened contents, `List ℚ` (exact rationals in
place of IEEE floats; `torch.flatten` of equal-shaped tensors yields
equal-length lists).  Elementwise multiplication of two 1-D tensors follows
PyTorch semantics: sizes must match, or a size-1 tensor is broadcast; anything
else raises a `RuntimeError`, embedded as `Except.error`.
-/

namespace Atrium

/-- The constant `1e-8` added to the denominator in `DiceLoss.forward`
("Add a small number to prevent NANS"). -/
def eps : ℚ := 1 / 100000000

/-- The PyTorch size-mismatch `RuntimeError` message for 1-D elementwise ops. -/
def sizeMismatchMsg : String :=
  "The size of tensor a must match the size of tensor b at non-singleton dimension 0"

/-- Elementwise product `a * b` of two flattened (1-D) tensors with PyTorch
broadcasting: equal sizes multiply pointwise, a size-1 tensor is broadcast
against the other, and any other size combination raises. -/
def torchMul (a b : List ℚ) : Except String (List ℚ) :=
  if a.length = b.length then Except.ok (List.zipWith (fun x y => x * y) a b)
  else if a.length = 1 then Except.ok (b.map (fun y => a.headD 0 * y))
  else if b.length = 1 then Except.ok (a.map (fun x => x * b.headD 0))
  else Except.error sizeMismatchMsg

namespace DiceLoss

/-- The notebook's `DiceLoss.forward`: flatten both tensors, take
`counter = (pred * mask).sum()`, `denum = pred.sum() + mask.sum() + 1e-8`,
`dice = (2*counter)/denum`, and return `1 - dice`.  The only failing operation
is the elementwise product `pred * mask`. -/
def forward (pred mask : List ℚ) : Except String ℚ :=
  (torchMul pred mask).map (fun prods =>
    let counter := prods.sum
    let denum := pred.sum + mask.sum + eps
    let dice := (2 * counter) / denum
    1 - dice)

end DiceLoss

/-- The value `DiceLoss.forward` computes on equal-length (equal-shaped,
flattened) inputs. -/
def diceLossFlat (pred mask : List ℚ) : ℚ :=
  1 - (2 * (List.zipWith (fun x y => x * y) pred mask).sum) /
    (pred.sum + mask.sum + eps)

/-- The Dice loss exactly as the spec words it (§4.1): intersection is the sum
of elementwise products, the denominator is the sum of both arrays' sums plus
the unconditional epsilon, and the loss is one minus the dice score. -/
def dice_loss_spec (P M : List ℚ) : ℚ :=
  let intersection := (List.zipWith (fun x y => x * y) P M).sum
  let denominator := P.sum + M.sum + eps
  let dice_score := 2 * intersection / denominator
  1 - dice_score

lemma forward_eq_flat (pred mask : List ℚ) (h : pred.length = mask.length) :
    DiceLoss.forward pred mask = Except.ok (diceLossFlat pred mask) := by
  simp [DiceLoss.forward, torchMul, h, diceLossFlat, Except.map]

lemma flat_eq_spec (P M : List ℚ) : diceLossFlat P M = dice_loss_spec P M := rfl

/-- C1: on equal-shaped inputs `DiceLoss.forward` returns exactly the spec's
formula `1 - 2·Σ(Pᵢ·Mᵢ) / (ΣPᵢ + ΣMᵢ + 1e-8)`, and on `P = [1,1,0,0]`,
`M = [1,0,0,0]` the returned loss is `100000001/300000001 ≈ 1/3`. -/
theorem dice_forward_matches_spec_formula :
    (∀ P M : List ℚ, P.length = M.length →
      DiceLoss.forward P M = Except.ok (dice_loss_spec P M))
    ∧ DiceLoss.forward [1, 1, 0, 0] [1, 0, 0, 0] =
        Except.ok (100000001 / 300000001)
    ∧ |(100000001 : ℚ) / 300000001 - 1 / 3| < 1 / 10000000 := by
  refine ⟨fun P M h => by rw [forward_eq_flat P M h, flat_eq_spec], ?_, ?_⟩
  · rw [forward_eq_flat [1, 1, 0, 0] [1, 0, 0, 0] rfl]
    norm_num [diceLossFlat, eps]
  · rw [abs_sub_lt_iff]
    norm_num

/-- Witness for C1 at the spec's own scenario input. -/
theorem dice_forward_matches_spec_formula_witness :
    DiceLoss.forward [1, 1, 0, 0] [1, 0, 0, 0] =
      Except.ok (dice_loss_spec [1, 1, 0, 0] [1, 0, 0, 0]) :=
  dice_forward_matches_spec_formula.1 [1, 1, 0, 0] [1, 0, 0, 0] rfl

lemma zipmul_self_replicate_zero (n : ℕ) :
    List.zipWith (fun x y => x * y) (List.replicate n (0 : ℚ))
      (List.replicate n 0) = List.replicate n 0 := by
  induction n with
  | zero => rfl
  | succ k ih => simp [List.replicate_succ, ih]

/-- C3: on all-zero inputs of any (equal) size, `DiceLoss.forward` returns
exactly 1; the denominator collapses to the strictly positive constant `1e-8`,
so the division is structurally guarded. -/
theorem dice_forward_all_zero (n : ℕ) :
    DiceLoss.forward (List.replicate n 0) (List.replicate n 0) = Except.ok 1
    ∧ (List.replicate n (0 : ℚ)).sum + (List.replicate n (0 : ℚ)).sum + eps = eps
    ∧ 0 < eps := by
  have hs : (List.replicate n (0 : ℚ)).sum = 0 := by
    simp [List.sum_replicate]
  refine ⟨?_, by rw [hs]; ring, by norm_num [eps]⟩
  rw [forward_eq_flat _ _ rfl]
  unfold diceLossFlat
  rw [zipmul_self_replicate_zero, hs]
  norm_num

/-- Witness for C3 at size 4 (the spec's `P = M = [0,0,0,0]` scenario). -/
theorem dice_forward_all_zero_witness :
    DiceLoss.forward (List.replicate 4 0) (List.replicate 4 0) = Except.ok 1 :=
  (dice_forward_all_zero 4).1

/-- C7: `DiceLoss.forward` is symmetric on equal-shaped inputs. -/
theorem dice_forward_symm (P M : List ℚ) (h : P.length = M.length) :
    DiceLoss.forward P M = DiceLoss.forward M P := by
  rw [forward_eq_flat P M h, forward_eq_flat M P h.symm]
  unfold diceLossFlat
  rw [List.zipWith_comm_of_comm _ mul_comm]
  ring_nf

/-- Witness for C7 on a concrete disjoint pair. -/
theorem dice_forward_symm_witness :
    DiceLoss.forward [1, 0] [0, 1] = DiceLoss.forward [0, 1] [1, 0] :=
  dice_forward_symm [1, 0] [0, 1] rfl

lemma zipmul_sum_nonneg (P M : List ℚ) (hP : ∀ x ∈ P, 0 ≤ x)
    (hM : ∀ x ∈ M, 0 ≤ x) :
    0 ≤ (List.zipWith (fun x y => x * y) P M).sum := by
  induction P generalizing M with
  | nil => simp
  | cons p ps ih =>
    cases M with
    | nil => simp
    | cons m ms =>
      simp only [List.zipWith_cons_cons, List.sum_cons]
      have h1 : 0 ≤ p * m :=
        mul_nonneg (hP p (by simp)) (hM m (by simp))
      have h2 : 0 ≤ (List.zipWith (fun x y => x * y) ps ms).sum :=
        ih ms (fun x hx => hP x (List.mem_cons_of_mem _ hx))
          (fun x hx => hM x (List.mem_cons_of_mem _ hx))
      linarith

lemma two_zipmul_sum_le (P M : List ℚ) (hP : ∀ x ∈ P, 0 ≤ x ∧ x ≤ 1)
    (hM : ∀ x ∈ M, 0 ≤ x ∧ x ≤ 1) :
    2 * (List.zipWith (fun x y => x * y) P M).sum ≤ P.sum + M.sum := by
  induction P generalizing M with
  | nil =>
    simp only [List.zipWith_nil_left, List.sum_nil, mul_zero, List.sum_nil,
      zero_add]
    exact List.sum_nonneg fun x hx => (hM x hx).1
  | cons p ps ih =>
    cases M with
    | nil =>
      simp only [List.zipWith_nil_right, List.sum_nil, mul_zero, List.sum_nil,
        add_zero]
      exact List.sum_nonneg fun x hx => (hP x hx).1
    | cons m ms =>
      simp only [List.zipWith_cons_cons, List.sum_cons]
      have hp := hP p (by simp)
      have hm := hM m (by simp)
      have hrest := ih ms (fun x hx => hP x (List.mem_cons_of_mem _ hx))
        (fun x hx => hM x (List.mem_cons_of_mem _ hx))
      nlinarith [hp.1, hp.2, hm.1, hm.2]

lemma diceLossFlat_pos_le_one (P M : List ℚ)
    (hP : ∀ x ∈ P, 0 ≤ x ∧ x ≤ 1) (hM : ∀ x ∈ M, 0 ≤ x ∧ x ≤ 1) :
    0 < diceLossFlat P M ∧ diceLossFlat P M ≤ 1 := by
  have hI : 0 ≤ (List.zipWith (fun x y => x * y) P M).sum :=
    zipmul_sum_nonneg P M (fun x hx => (hP x hx).1) (fun x hx => (hM x hx).1)
  have hIS : 2 * (List.zipWith (fun x y => x * y) P M).sum ≤ P.sum + M.sum :=
    two_zipmul_sum_le P M hP hM
  have hSP : 0 ≤ P.sum := List.sum_nonneg fun x hx => (hP x hx).1
  have hSM : 0 ≤ M.sum := List.sum_nonneg fun x hx => (hM x hx).1
  have hden : 0 < P.sum + M.sum + eps := by
    have : (0 : ℚ) < eps := by norm_num [eps]
    linarith
  constructor
  · have hlt : 2 * (List.zipWith (fun x y => x * y) P M).sum /
        (P.sum + M.sum + eps) < 1 := by
      rw [div_lt_one hden]
      have : (0 : ℚ) < eps := by norm_num [eps]
      linarith
    unfold diceLossFlat
    linarith
  · have hge : 0 ≤ 2 * (List.zipWith (fun x y => x * y) P M).sum /
        (P.sum + M.sum + eps) := div_nonneg (by linarith) hden.le
    unfold diceLossFlat
    linarith

/-- C2 counterexample: `P = M = [2]` has all entries non-negative, yet
`DiceLoss.forward` returns `-399999999/400000001 ≈ -1`, outside `[0, 1]`. -/
theorem dice_forward_nonneg_counterexample :
    (∀ x ∈ ([2] : List ℚ), 0 ≤ x)
    ∧ DiceLoss.forward [2] [2] = Except.ok (-399999999 / 400000001)
    ∧ ((-399999999 : ℚ) / 400000001) < 0 := by
  refine ⟨by norm_num, ?_, by norm_num⟩
  rw [forward_eq_flat [2] [2] rfl]
  norm_num [diceLossFlat, eps]

/-- C2 (amended): on equal-shaped inputs whose entries lie in `[0, 1]` (the
post-sigmoid predictions and binary masks actually fed to the loss),
`DiceLoss.forward` succeeds, the denominator is strictly positive (no NaN/Inf
source), and the returned loss lies in `[0, 1]`. -/
theorem dice_forward_unit_interval_bounds (P M : List ℚ)
    (h : P.length = M.length)
    (hP : ∀ x ∈ P, 0 ≤ x ∧ x ≤ 1) (hM : ∀ x ∈ M, 0 ≤ x ∧ x ≤ 1) :
    DiceLoss.forward P M = Except.ok (diceLossFlat P M)
    ∧ 0 ≤ diceLossFlat P M ∧ diceLossFlat P M ≤ 1
    ∧ 0 < P.sum + M.sum + eps := by
  have hb := diceLossFlat_pos_le_one P M hP hM
  refine ⟨forward_eq_flat P M h, hb.1.le, hb.2, ?_⟩
  have hSP : 0 ≤ P.sum := List.sum_nonneg fun x hx => (hP x hx).1
  have hSM : 0 ≤ M.sum := List.sum_nonneg fun x hx => (hM x hx).1
  have : (0 : ℚ) < eps := by norm_num [eps]
  linarith

/-- Witness for the amended C2 on `P = [1, 0]`, `M = [1, 1]`. -/
theorem dice_forward_unit_interval_bounds_witness :
    DiceLoss.forward [1, 0] [1, 1] = Except.ok (diceLossFlat [1, 0] [1, 1])
    ∧ 0 ≤ diceLossFlat [1, 0] [1, 1] ∧ diceLossFlat [1, 0] [1, 1] ≤ 1
    ∧ 0 < ([1, 0] : List ℚ).sum + ([1, 1] : List ℚ).sum + eps :=
  dice_forward_unit_interval_bounds [1, 0] [1, 1] rfl (by norm_num)
    (by norm_num)

lemma zipmul_self_binary (X : List ℚ) (hbin : ∀ x ∈ X, x = 0 ∨ x = 1) :
    (List.zipWith (fun x y => x * y) X X).sum = X.sum := by
  induction X with
  | nil => rfl
  | cons x xs ih =>
    simp only [List.zipWith_cons_cons, List.sum_cons]
    have hx : x * x = x := by
      rcases hbin x (by simp) with h | h <;> rw [h] <;> ring
    rw [hx, ih (fun y hy => hbin y (List.mem_cons_of_mem _ hy))]

lemma binary_sum_ge_one (X : List ℚ) (hbin : ∀ x ∈ X, x = 0 ∨ x = 1)
    (hnz : ¬ ∀ x ∈ X, x = 0) : 1 ≤ X.sum := by
  push_neg at hnz
  obtain ⟨x, hxmem, hxne⟩ := hnz
  have hx1 : x = 1 := by
    rcases hbin x hxmem with h | h
    · exact absurd h hxne
    · exact h
  have := List.single_le_sum
    (fun y hy => by rcases hbin y hy with h | h <;> simp [h]) x hxmem
  linarith [hx1 ▸ this]

lemma diceLossFlat_self_binary (X : List ℚ) (hbin : ∀ x ∈ X, x = 0 ∨ x = 1) :
    diceLossFlat X X = eps / (2 * X.sum + eps) := by
  have hS : 0 ≤ X.sum :=
    List.sum_nonneg fun y hy => by rcases hbin y hy with h | h <;> simp [h]
  have hden : (0 : ℚ) < 2 * X.sum + eps := by
    have : (0 : ℚ) < eps := by norm_num [eps]
    linarith
  unfold diceLossFlat
  rw [zipmul_self_binary X hbin]
  have h1 : X.sum + X.sum + eps ≠ 0 := by
    have : (0 : ℚ) < eps := by norm_num [eps]
    exact ne_of_gt (by linarith)
  have h2 : 2 * X.sum + eps ≠ 0 := ne_of_gt hden
  field_simp
  ring

/-- C8 counterexample: `X = [1/2]` is not all-zero, yet
`DiceLoss.forward(X, X)` is `50000001/100000001 ≈ 0.5`, far from 0. -/
theorem dice_self_soft_counterexample :
    (¬ ∀ x ∈ ([1 / 2] : List ℚ), x = 0)
    ∧ DiceLoss.forward [1 / 2] [1 / 2] = Except.ok (50000001 / 100000001)
    ∧ (1 / 3 : ℚ) < 50000001 / 100000001 := by
  refine ⟨by norm_num, ?_, by norm_num⟩
  rw [forward_eq_flat [1 / 2] [1 / 2] rfl]
  norm_num [diceLossFlat, eps]

/-- C8 (amended): for every binary mask `X` (entries in `{0, 1}`) that is not
all-zero, `DiceLoss.forward(X, X)` equals `ε / (2·ΣX + ε)`, which is strictly
positive and smaller than `ε = 1e-8` — approximately 0. -/
theorem dice_self_binary_approx_zero (X : List ℚ)
    (hbin : ∀ x ∈ X, x = 0 ∨ x = 1) (hnz : ¬ ∀ x ∈ X, x = 0) :
    DiceLoss.forward X X = Except.ok (eps / (2 * X.sum + eps))
    ∧ 0 < eps / (2 * X.sum + eps) ∧ eps / (2 * X.sum + eps) < eps := by
  have hS : 1 ≤ X.sum := binary_sum_ge_one X hbin hnz
  have heps : (0 : ℚ) < eps := by norm_num [eps]
  have hden : (0 : ℚ) < 2 * X.sum + eps := by linarith
  refine ⟨?_, div_pos heps hden, ?_⟩
  · rw [forward_eq_flat X X rfl, diceLossFlat_self_binary X hbin]
  · rw [div_lt_iff₀ hden]
    nlinarith

/-- Witness for the amended C8 at `X = [1]`. -/
theorem dice_self_binary_approx_zero_witness :
    DiceLoss.forward [1] [1] =
      Except.ok (eps / (2 * ([1] : List ℚ).sum + eps))
    ∧ 0 < eps / (2 * ([1] : List ℚ).sum + eps)
    ∧ eps / (2 * ([1] : List ℚ).sum + eps) < eps :=
  dice_self_binary_approx_zero [1] (by norm_num) (by norm_num)

/-- C9: on equal-shaped inputs with entries in `[0, 1]` the loss is strictly
positive and at most 1 — it is never exactly 0, because the epsilon is added
to the denominator unconditionally; for identical non-zero binary masks it
equals `ε / (2·ΣX + ε)`. -/
theorem dice_forward_strictly_positive (P M : List ℚ)
    (h : P.length = M.length)
    (hP : ∀ x ∈ P, 0 ≤ x ∧ x ≤ 1) (hM : ∀ x ∈ M, 0 ≤ x ∧ x ≤ 1) :
    (DiceLoss.forward P M = Except.ok (diceLossFlat P M)
      ∧ 0 < diceLossFlat P M ∧ diceLossFlat P M ≤ 1)
    ∧ ∀ X : List ℚ, (∀ x ∈ X, x = 0 ∨ x = 1) →
        diceLossFlat X X = eps / (2 * X.sum + eps) := by
  have hb := diceLossFlat_pos_le_one P M hP hM
  exact ⟨⟨forward_eq_flat P M h, hb.1, hb.2⟩,
    fun X hbin => diceLossFlat_self_binary X hbin⟩

/-- Witness for C9 at `P = [1, 1]`, `M = [1, 0]`. -/
theorem dice_forward_strictly_positive_witness :
    (DiceLoss.forward [1, 1] [1, 0] =
        Except.ok (diceLossFlat [1, 1] [1, 0])
      ∧ 0 < diceLossFlat [1, 1] [1, 0] ∧ diceLossFlat [1, 1] [1, 0] ≤ 1)
    ∧ ∀ X : List ℚ, (∀ x ∈ X, x = 0 ∨ x = 1) →
        diceLossFlat X X = eps / (2 * X.sum + eps) :=
  dice_forward_strictly_positive [1, 1] [1, 0] rfl (by norm_num) (by norm_num)

/-- C4 counterexample: `P = [1]` and `M = [1,1,0,0]` flatten to lengths 1 and
4 — unequal — yet `DiceLoss.forward` does not fail: PyTorch silently
broadcasts the size-1 tensor and returns a value. -/
theorem dice_forward_broadcast_counterexample :
    (([1] : List ℚ).length ≠ ([1, 1, 0, 0] : List ℚ).length)
    ∧ DiceLoss.forward [1] [1, 1, 0, 0] =
        Except.ok (-99999999 / 300000001) := by
  refine ⟨by norm_num, ?_⟩
  simp only [DiceLoss.forward, torchMul, Except.map]
  norm_num [eps]

/-- C4 (amended): `DiceLoss.forward` raises the size-mismatch error exactly
when the flattened lengths differ and neither input flattens to a single
element; when either input flattens to one element it silently broadcasts and
returns a value instead of failing. -/
theorem dice_forward_shape_mismatch (P M : List ℚ) :
    (P.length ≠ M.length → P.length ≠ 1 → M.length ≠ 1 →
      DiceLoss.forward P M = Except.error sizeMismatchMsg)
    ∧ ((P.length = M.length ∨ P.length = 1 ∨ M.length = 1) →
      ∃ q, DiceLoss.forward P M = Except.ok q) := by
  constructor
  · intro h h1 h2
    simp [DiceLoss.forward, torchMul, h, h1, h2, Except.map]
  · intro h
    unfold DiceLoss.forward torchMul
    split_ifs with h1 h2 h3
    · exact ⟨_, rfl⟩
    · exact ⟨_, rfl⟩
    · exact ⟨_, rfl⟩
    · rcases h with h | h | h
      · exact absurd h h1
      · exact absurd h h2
      · exact absurd h h3

/-- Witness for the amended C4: lengths 2 and 3 (neither 1) do fail. -/
theorem dice_forward_shape_mismatch_witness :
    DiceLoss.forward [1, 1] [1, 2, 3] = Except.error sizeMismatchMsg :=
  (dice_forward_shape_mismatch [1, 1] [1, 2, 3]).1 (by decide) (by decide)
    (by decide)

/-- The observable outcome of one training or validation step: the metric
entries logged via `self.log`, whether the visual artifact was emitted via
`log_images`, and the returned value. -/
structure StepResult where
  logs : List (String × ℚ)
  imageLogged : Bool
  ret : ℚ

/-- The notebook's `AtriumSegmentation.training_step`: cast the mask to
float, run the
forward pass (`net`, the opaque sigmoid-composed U-Net, whose output has the
mask's shape), compute the Dice loss, log it once as "Train Dice", emit the
visual artifact exactly when `batch_idx % 50 == 0`, and return the loss. -/
def training_step (net : List ℚ → List ℚ) (mri mask : List ℚ)
    (batch_idx : ℕ) : StepResult :=
  let pred := net mri
  let loss := diceLossFlat pred mask
  { logs := [("Train Dice", loss)]
    imageLogged := batch_idx % 50 == 0
    ret := loss }

/-- The notebook's `AtriumSegmentation.validation_step`: identical to the
training step
except the channel name "Val Dice" and the cadence `batch_idx % 2 == 0`. -/
def validation_step (net : List ℚ → List ℚ) (mri mask : List ℚ)
    (batch_idx : ℕ) : StepResult :=
  let pred := net mri
  let loss := diceLossFlat pred mask
  { logs := [("Val Dice", loss)]
    imageLogged := batch_idx % 2 == 0
    ret := loss }

/-- C6: each training step logs the dice loss exactly once under "Train Dice"
and each validation step exactly once under "Val Dice"; the artifact is
emitted iff `batch_idx % 50 = 0` (train) resp. `batch_idx % 2 = 0` (val); the
return value is the scalar loss, independent of the batch index (hence of
whether the artifact was emitted), and agrees with `DiceLoss.forward` on
shape-matched predictions. -/
theorem step_logging_contract (net : List ℚ → List ℚ)
    (mri mask : List ℚ) (batch_idx : ℕ) :
    ((training_step net mri mask batch_idx).logs.filter
        (fun e => e.1 == "Train Dice")).length = 1
    ∧ (training_step net mri mask batch_idx).logs =
        [("Train Dice", diceLossFlat (net mri) mask)]
    ∧ ((training_step net mri mask batch_idx).imageLogged = true ↔
        batch_idx % 50 = 0)
    ∧ (training_step net mri mask batch_idx).ret =
        diceLossFlat (net mri) mask
    ∧ ((validation_step net mri mask batch_idx).logs.filter
        (fun e => e.1 == "Val Dice")).length = 1
    ∧ (validation_step net mri mask batch_idx).logs =
        [("Val Dice", diceLossFlat (net mri) mask)]
    ∧ ((validation_step net mri mask batch_idx).imageLogged = true ↔
        batch_idx % 2 = 0)
    ∧ (validation_step net mri mask batch_idx).ret =
        diceLossFlat (net mri) mask
    ∧ (∀ i j : ℕ, (training_step net mri mask i).ret =
          (training_step net mri mask j).ret
        ∧ (validation_step net mri mask i).ret =
          (validation_step net mri mask j).ret)
    ∧ ((net mri).length = mask.length →
        DiceLoss.forward (net mri) mask =
          Except.ok ((training_step net mri mask batch_idx).ret)) := by
  refine ⟨by simp [training_step], rfl, by simp [training_step], rfl,
    by simp [validation_step], rfl, by simp [validation_step], rfl,
    fun i j => ⟨rfl, rfl⟩, fun h => forward_eq_flat _ _ h⟩

/-- Witness for C6 with the identity network on a concrete batch. -/
theorem step_logging_contract_witness :
    (training_step (fun l => l) [1, 0] [1, 1] 0).logs =
      [("Train Dice", diceLossFlat [1, 0] [1, 1])]
    ∧ DiceLoss.forward [1, 0] [1, 1] =
        Except.ok ((training_step (fun l => l) [1, 0] [1, 1] 0).ret) :=
  ⟨(step_logging_contract (fun l => l) [1, 0] [1, 1] 0).2.1,
    (step_logging_contract (fun l => l) [1, 0] [1, 1] 0).2.2.2.2.2.2.2.2.2
      rfl⟩

/-- Binarization of predictions in `AtriumSegmentation.log_images`:
`pred = pred > 0.5`, elementwise. -/
def log_images_binarize (pred : List ℚ) : List Bool :=
  pred.map (fun p => decide ((0.5 : ℚ) < p))

/-- Binarization in the slice-by-slice inference loop: `pred = pred > 0.5`,
elementwise. -/
def inference_binarize (pred : List ℚ) : List Bool :=
  pred.map (fun p => decide ((0.5 : ℚ) < p))

/-- C10: both binarization sites threshold strictly at 0.5 — a pixel whose
probability is exactly 0.5 maps to background (`false`); only probabilities
strictly above 0.5 become foreground. -/
theorem prediction_threshold_strict :
    (∀ pred : List ℚ, log_images_binarize pred =
      pred.map (fun p => decide ((1 / 2 : ℚ) < p)))
    ∧ (∀ pred : List ℚ, inference_binarize pred = log_images_binarize pred)
    ∧ (∀ p : ℚ, p = 1 / 2 →
        log_images_binarize [p] = [false] ∧ inference_binarize [p] = [false])
    ∧ log_images_binarize [1 / 4, 1 / 2, 3 / 4] = [false, false, true]
    ∧ inference_binarize [1 / 2] = [false] := by
  have h05 : (0.5 : ℚ) = 1 / 2 := by norm_num
  have a1 : decide ((0.5 : ℚ) < 1 / 4) = false := decide_eq_false (by norm_num)
  have a2 : decide ((0.5 : ℚ) < 1 / 2) = false := decide_eq_false (by norm_num)
  have a3 : decide ((0.5 : ℚ) < 3 / 4) = true := decide_eq_true (by norm_num)
  refine ⟨fun pred => by simp [log_images_binarize, h05], fun pred => rfl,
    fun p hp => ?_, by simp [log_images_binarize, a1, a2, a3]; norm_num,
    by simp [inference_binarize, a2]; norm_num⟩
  subst hp
  constructor <;>
    simp [log_images_binarize, inference_binarize, a2] <;> norm_num

/-- Witness for C10 at the boundary probability 0.5. -/
theorem prediction_threshold_strict_witness :
    log_images_binarize [1 / 2] = [false]
    ∧ inference_binarize [1 / 2] = [false] :=
  prediction_threshold_strict.2.2.1 (1 / 2) rfl

/-- The notebook's checkpoint configuration: `monitor='Val Dice'`. -/
def checkpoint_monitor : String := "Val Dice"

/-- The notebook's checkpoint configuration: `save_top_k=10`. -/
def checkpoint_save_top_k : ℕ := 10

/-- The notebook's checkpoint configuration: `mode='min'`. -/
def checkpoint_mode : String := "min"

/-- Modelled from the spec: the notebook only configures
`ModelCheckpoint(monitor='Val Dice', save_top_k=10, mode='min')`; the
retention rule itself lives in the training framework, outside this
repository.  Following §4.3 of the spec: keep a list of retained metric
values sorted ascending; when a candidate arrives, if fewer than K are
retained or the candidate is lower than the worst (last) retained value,
insert it in sorted order and evict the worst if the list now exceeds K;
otherwise discard the candidate. -/
def checkpointStep (K : ℕ) (retained : List ℚ) (cand : ℚ) : List ℚ :=
  match retained.getLast? with
  | none => (List.orderedInsert (· ≤ ·) cand retained).take K
  | some w =>
    if retained.length < K ∨ cand < w then
      (List.orderedInsert (· ≤ ·) cand retained).take K
    else retained

/-- Modelled from the spec: the checkpoint policy applied to the whole
sequence of per-epoch candidate metric values, starting from no retained
checkpoints. -/
def runPolicy (K : ℕ) (cands : List ℚ) : List ℚ :=
  cands.foldl (checkpointStep K) []

lemma orderedInsert_append_of_le (x : ℚ) (l₁ l₂ : List ℚ)
    (h : ∃ a ∈ l₁, x ≤ a) :
    List.orderedInsert (· ≤ ·) x (l₁ ++ l₂) =
      List.orderedInsert (· ≤ ·) x l₁ ++ l₂ := by
  induction l₁ with
  | nil => simp at h
  | cons b t ih =>
    by_cases hxb : x ≤ b
    · simp [List.orderedInsert, hxb]
    · obtain ⟨a, ha, hxa⟩ := h
      have hat : a ∈ t := by
        rcases List.mem_cons.mp ha with rfl | hat
        · exact absurd hxa hxb
        · exact hat
      simp only [List.cons_append, List.orderedInsert, if_neg hxb,
        List.append_eq]
      rw [ih ⟨a, hat, hxa⟩]

lemma orderedInsert_append_of_lt (x : ℚ) (l₁ l₂ : List ℚ)
    (h : ∀ a ∈ l₁, ¬ x ≤ a) :
    List.orderedInsert (· ≤ ·) x (l₁ ++ l₂) =
      l₁ ++ List.orderedInsert (· ≤ ·) x l₂ := by
  induction l₁ with
  | nil => simp
  | cons b t ih =>
    simp only [List.cons_append, List.orderedInsert,
      if_neg (h b (List.mem_cons_self b t)), List.append_eq]
    rw [ih (fun a ha => h a (List.mem_cons_of_mem _ ha))]

lemma checkpointStep_take (K : ℕ) (s : List ℚ) (x : ℚ)
    (hs : s.Sorted (· ≤ ·)) (hx : x ∉ s) :
    checkpointStep K (s.take K) x =
      (List.orderedInsert (· ≤ ·) x s).take K := by
  rcases lt_or_le s.length K with hsK | hKs
  · rw [List.take_of_length_le hsK.le]
    cases hL : s.getLast? with
    | none => simp only [checkpointStep, hL]
    | some w =>
      simp only [checkpointStep, hL]
      rw [if_pos (Or.inl hsK)]
  · rcases Nat.eq_zero_or_pos K with rfl | hK
    · simp [checkpointStep]
    · set retained := s.take K with hrdef
      have hlen : retained.length = K := by
        rw [hrdef, List.length_take]; exact min_eq_left hKs
      have hne : retained ≠ [] := by
        intro h0; rw [h0] at hlen; simp at hlen; omega
      have hL : retained.getLast? = some (retained.getLast hne) :=
        List.getLast?_eq_getLast retained hne
      set w := retained.getLast hne with hwdef
      obtain ⟨t, htw⟩ := List.getLast?_eq_some_iff.mp hL
      have hsplit : s = retained ++ s.drop K := (List.take_append_drop K s).symm
      have hsr : retained.Sorted (· ≤ ·) :=
        hs.sublist (List.take_sublist K s)
      have hwmem : w ∈ retained := List.getLast_mem hne
      have hwle : ∀ a ∈ retained, a ≤ w := by
        intro a ha
        rw [htw] at ha hsr
        rcases List.mem_append.mp ha with hat | haw
        · exact (List.pairwise_append.mp hsr).2.2 a hat w
            (List.mem_singleton_self w)
        · rw [List.mem_singleton.mp haw]
      simp only [checkpointStep, hL]
      by_cases hxw : x < w
      · rw [if_pos (Or.inr hxw)]
        conv_rhs => rw [hsplit]
        rw [orderedInsert_append_of_le x retained (s.drop K) ⟨w, hwmem, hxw.le⟩]
        rw [List.take_append_eq_append_take]
        have hlen2 : (List.orderedInsert (· ≤ ·) x retained).length = K + 1 := by
          rw [List.orderedInsert_length, hlen]
        rw [hlen2]
        simp
      · have hlt : ∀ a ∈ retained, ¬ x ≤ a := by
          intro a ha hle
          have haw := hwle a ha
          have hwx : w ≤ x := le_of_not_lt hxw
          have hax : a = x := le_antisymm (haw.trans hwx) hle
          exact hx (hax ▸ List.mem_of_mem_take ha)
        rw [if_neg (by
          push_neg
          exact ⟨by omega, le_of_not_lt hxw⟩)]
        conv_rhs => rw [hsplit]
        rw [orderedInsert_append_of_lt x retained (s.drop K) hlt]
        rw [List.take_append_eq_append_take, hlen]
        simp [List.take_of_length_le hlen.le]

lemma insertionSort_append_singleton (l : List ℚ) (x : ℚ) :
    List.insertionSort (· ≤ ·) (l ++ [x]) =
      List.orderedInsert (· ≤ ·) x (List.insertionSort (· ≤ ·) l) := by
  have hperm : List.Perm (List.insertionSort (· ≤ ·) (l ++ [x]))
      (List.orderedInsert (· ≤ ·) x (List.insertionSort (· ≤ ·) l)) :=
    ((List.perm_insertionSort _ _).trans
      ((List.perm_append_singleton x l).trans
        ((List.perm_insertionSort (· ≤ ·) l).symm.cons x))).trans
      (List.perm_orderedInsert _ x _).symm
  exact List.eq_of_perm_of_sorted hperm (List.sorted_insertionSort _ _)
    ((List.sorted_insertionSort (· ≤ ·) l).orderedInsert x _)

lemma runPolicy_eq_take_sort (K : ℕ) (cands : List ℚ) (h : cands.Nodup) :
    runPolicy K cands = (List.insertionSort (· ≤ ·) cands).take K := by
  induction cands using List.reverseRecOn with
  | nil => simp [runPolicy]
  | append_singleton l x ih =>
    obtain ⟨hl, -, hdisj⟩ := List.nodup_append.mp h
    have hxl : x ∉ l := fun hmem => hdisj hmem (List.mem_singleton_self x)
    rw [runPolicy, List.foldl_append, List.foldl_cons, List.foldl_nil]
    rw [show List.foldl (checkpointStep K) [] l = runPolicy K l from rfl, ih hl]
    rw [checkpointStep_take K _ x (List.sorted_insertionSort _ l)
      (fun hmem => hxl (((List.perm_insertionSort (· ≤ ·) l).mem_iff).mp hmem))]
    rw [insertionSort_append_singleton]

/-- C5: the configured policy (`monitor='Val Dice'`, `save_top_k=10`,
`mode='min'`) keeps, after any sequence of more than K distinct-valued
candidates, exactly the K lowest metric values in ascending order; with K = 2
and candidates `[0.5, 0.3, 0.4, 0.2]` it retains `[0.2, 0.3]`; and a
candidate worse than every retained value leaves a full list unchanged. -/
theorem checkpoint_policy_retains_k_lowest :
    (checkpoint_monitor = "Val Dice" ∧ checkpoint_save_top_k = 10
      ∧ checkpoint_mode = "min")
    ∧ (∀ (K : ℕ) (cands : List ℚ), cands.Nodup → K < cands.length →
        (runPolicy K cands).length = K
        ∧ runPolicy K cands = (List.insertionSort (· ≤ ·) cands).take K
        ∧ (runPolicy K cands).Sorted (· ≤ ·)
        ∧ ∀ x ∈ runPolicy K cands, ∀ y ∈ cands, y ∉ runPolicy K cands → x ≤ y)
    ∧ runPolicy 2 [1/2, 3/10, 2/5, 1/5] = [1/5, 3/10]
    ∧ (∀ (K : ℕ) (l : List ℚ) (x : ℚ), l.length = K → (∀ y ∈ l, y < x) →
        checkpointStep K l x = l) := by
  refine ⟨⟨rfl, rfl, rfl⟩, ?_, ?_, ?_⟩
  · intro K cands hnd hKlen
    have hrp := runPolicy_eq_take_sort K cands hnd
    have hsorted := List.sorted_insertionSort (· ≤ ·) cands
    refine ⟨?_, hrp, ?_, ?_⟩
    · rw [hrp, List.length_take, List.length_insertionSort]
      exact min_eq_left hKlen.le
    · rw [hrp]
      exact hsorted.sublist (List.take_sublist _ _)
    · intro x hxm y hy hyn
      rw [hrp] at hxm hyn
      have hys : y ∈ List.insertionSort (· ≤ ·) cands :=
        ((List.perm_insertionSort (· ≤ ·) cands).mem_iff).mpr hy
      have hysplit : y ∈ (List.insertionSort (· ≤ ·) cands).take K ++
          (List.insertionSort (· ≤ ·) cands).drop K := by
        rw [List.take_append_drop]; exact hys
      rcases List.mem_append.mp hysplit with h1 | h2
      · exact absurd h1 hyn
      · have hdecomp : List.Pairwise (· ≤ ·)
            ((List.insertionSort (· ≤ ·) cands).take K ++
              (List.insertionSort (· ≤ ·) cands).drop K) := by
          rw [List.take_append_drop]; exact hsorted
        exact (List.pairwise_append.mp hdecomp).2.2 x hxm y h2
  · norm_num [runPolicy, checkpointStep, List.orderedInsert]
  · intro K l x hlen hworse
    cases hL : l.getLast? with
    | none =>
      have hnil : l = [] := List.getLast?_eq_none_iff.mp hL
      subst hnil
      simp only [List.length_nil] at hlen
      subst hlen
      simp [checkpointStep]
    | some w =>
      obtain ⟨t, htw⟩ := List.getLast?_eq_some_iff.mp hL
      have hwmem : w ∈ l := by
        rw [htw]
        exact List.mem_append_right t (List.mem_singleton_self w)
      simp only [checkpointStep, hL]
      rw [if_neg]
      push_neg
      exact ⟨by omega, (hworse w hwmem).le⟩

/-- Witness for C5 with K = 1 over two candidates. -/
theorem checkpoint_policy_retains_k_lowest_witness :
    (runPolicy 1 [1/2, 1/5]).length = 1 :=
  (checkpoint_policy_retains_k_lowest.2.1 1 [1/2, 1/5]
    (by norm_num [List.nodup_cons]) (by norm_num)).1

end Atrium
